import Mathlib

/-
Verification of the miniature regular-expression engine (src/test.py, src/shorter.py).

The source is Python 2.  We embed its dynamic value space shallowly:
the classes Literal / And / Or together with the Python value None
(which the parser can produce for an empty character class) form one
inductive type.  Stateful matching (the shared mutable cursor list) is
modelled by explicit state passing; a raised exception is modelled by
an Option / Except none-or-error result.
-/

set_option maxRecDepth 8000

namespace Regexfun

/-- The dynamic value space of the program: the three node classes of
src/test.py (Literal owns a single symbol; And and Or own an ordered
operand list) plus the Python value None, which `chars` returns for an
empty character class and which can therefore appear inside trees. -/
inductive Regex where
  | Literal (c : Char)
  | And (ops : List Regex)
  | Or (ops : List Regex)
  | pynone

/-- Embedding of `_match` (test.py lines 29-69) with the cursor made
explicit.  Python mutates the shared list `s` in place; here each call
returns the boolean result together with the cursor contents after the
call.  A `none` result models a raised exception: calling the Python
value None as a matcher (`op(s)` with `op = None`) raises TypeError.

Literal._match: if the cursor is non-empty and its front equals the
symbol, pop the front and return True, else return False.
And._match: `all(op(s) for op in ops)` - left to right, stops at the
first False, empty conjunction is True.
Or._match: `any(op(s) for op in ops)` - left to right, stops at the
first True, empty disjunction is False. -/
def matchE : Regex → List Char → Option (Bool × List Char)
  | .pynone, _ => none
  | .Literal _, [] => some (false, [])
  | .Literal c, x :: rest =>
      if x = c then some (true, rest) else some (false, x :: rest)
  | .And [], s => some (true, s)
  | .And (op :: ops), s =>
      match matchE op s with
      | none => none
      | some (true, s1) => matchE (.And ops) s1
      | some (false, s1) => some (false, s1)
  | .Or [], s => some (false, s)
  | .Or (op :: ops), s =>
      match matchE op s with
      | none => none
      | some (true, s1) => some (true, s1)
      | some (false, s1) => matchE (.Or ops) s1
termination_by t _ => sizeOf t
decreasing_by all_goals (simp_wf; try omega)

/-- Embedding of `Regex.__call__` (test.py lines 15-19): converts the
subject string to a list and runs `_match`, returning only the boolean;
the cursor is discarded at top level. -/
def callRe (t : Regex) (s : List Char) : Option Bool :=
  (matchE t s).map Prod.fst

/-- An Expression Tree in the sense of the data model (spec section 3):
a value built only from Literal, And and Or, with no embedded Python
None. -/
def isExpr : Regex → Bool
  | .Literal _ => true
  | .pynone => false
  | .And [] => true
  | .And (op :: ops) => isExpr op && isExpr (.And ops)
  | .Or [] => true
  | .Or (op :: ops) => isExpr op && isExpr (.Or ops)
termination_by t => sizeOf t
decreasing_by all_goals (simp_wf; try omega)

/-- Helper for `pyEq`: Python 2 comparison of the single-element operand
list of a Literal (containing its symbol, a string) against the operand
list of a composite node (containing node objects or None).  A list
comparison first compares lengths; on a length mismatch it is False.
On equal length 1 the element comparison is symbol-versus-node: if the
node is None the default Python 2 comparison yields False, otherwise the
reflected `Regex.__eq__` call evaluates `"c".operands` resp.
`None.operands` on a string and raises AttributeError (modelled none).
The same values arise in both comparison orders. -/
def litCmpOps : List Regex → Option Bool
  | [.pynone] => some false
  | [_] => none
  | _ => some false

mutual

/-- Embedding of `Regex.__eq__` (test.py lines 20-27) under Python 2
comparison semantics.  The method compares `self.operands ==
other.operands` and nothing else: the variant tag is never inspected.
`Literal.operands` is the one-element list holding the symbol
(test.py lines 55-57).  A `none` result models a raised AttributeError:
comparing a node with None (in either order) calls the reflected
`__eq__` which evaluates `None.operands`; comparing a Literal with a
one-operand composite compares the symbol string against a node object,
whose reflected `__eq__` evaluates `"c".operands`.  `None == None` is
True by identity, and a string compared with None is False by Python 2
default comparison. -/
def pyEq : Regex → Regex → Option Bool
  | .pynone, .pynone => some true
  | .pynone, _ => none
  | _, .pynone => none
  | .Literal c, .Literal d => some (decide (c = d))
  | .Literal _, .And ops => litCmpOps ops
  | .Literal _, .Or ops => litCmpOps ops
  | .And ops, .Literal _ => litCmpOps ops
  | .Or ops, .Literal _ => litCmpOps ops
  | .And xs, .And ys => if xs.length = ys.length then pyEqScan xs ys else some false
  | .And xs, .Or ys => if xs.length = ys.length then pyEqScan xs ys else some false
  | .Or xs, .And ys => if xs.length = ys.length then pyEqScan xs ys else some false
  | .Or xs, .Or ys => if xs.length = ys.length then pyEqScan xs ys else some false
termination_by r _ => sizeOf r
decreasing_by all_goals (simp_wf; try omega)

/-- Element-wise scan of two equal-length operand lists, as Python list
equality performs it after the length check: stop at the first raised
exception (none) or the first unequal pair (some false). -/
def pyEqScan : List Regex → List Regex → Option Bool
  | x :: xs, y :: ys =>
      match pyEq x y with
      | none => none
      | some false => some false
      | some true => pyEqScan xs ys
  | _, _ => some true
termination_by xs _ => sizeOf xs
decreasing_by all_goals (simp_wf; try omega)

end

/-- Structural induction principle for the nested inductive Regex,
giving the inductive hypothesis for every member of an operand list. -/
theorem Regex.recOnMem {motive : Regex → Prop}
    (hlit : ∀ c, motive (.Literal c))
    (hnone : motive .pynone)
    (hand : ∀ ops, (∀ r ∈ ops, motive r) → motive (.And ops))
    (hor : ∀ ops, (∀ r ∈ ops, motive r) → motive (.Or ops)) :
    ∀ t, motive t
  | .Literal c => hlit c
  | .pynone => hnone
  | .And ops => hand ops (fun r hr => Regex.recOnMem hlit hnone hand hor r)
  | .Or ops => hor ops (fun r hr => Regex.recOnMem hlit hnone hand hor r)
termination_by t => sizeOf t
decreasing_by all_goals (simp_wf; have h2 := List.sizeOf_lt_of_mem hr; omega)

theorem pyEqScan_refl (ops : List Regex) (h : ∀ r ∈ ops, pyEq r r = some true) :
    pyEqScan ops ops = some true := by
  induction ops with
  | nil => simp [pyEqScan]
  | cons x xs ih =>
      rw [pyEqScan, h x (by simp)]
      exact ih (fun r hr => h r (by simp [hr]))

/-- The embedded Python equality is reflexive on every value: comparing
a value with (a structural copy of) itself returns True. -/
theorem pyEq_refl (t : Regex) : pyEq t t = some true := by
  induction t using Regex.recOnMem with
  | hlit c => simp [pyEq]
  | hnone => simp [pyEq]
  | hand ops ih => simpa [pyEq] using pyEqScan_refl ops ih
  | hor ops ih => simpa [pyEq] using pyEqScan_refl ops ih

/-- Tag standing for the operator-class argument of combine_operators
(the Python function receives the class And or Or itself). -/
inductive OpKind where
  | andK
  | orK

/-- isinstance(x, operator) for the two operator classes. -/
def isOfKind : OpKind → Regex → Bool
  | .andK, .And _ => true
  | .orK, .Or _ => true
  | _, _ => false

/-- The .operands attribute of a composite node; inside
combine_operators it is only ever read from nodes of the matching
operator kind. -/
def compOperands : Regex → List Regex
  | .And ops => ops
  | .Or ops => ops
  | _ => []

/-- type(tree)(*args): rebuild a node with the same class as tree and a
new operand list. -/
def mkSame : Regex → List Regex → Regex
  | .And _, ops => .And ops
  | .Or _, ops => .Or ops
  | t, _ => t

/-- Embedding of combine_operators (test.py lines 183-193).  When the
tree is an instance of the operator class, rebuild a node of the same
class whose operands are the non-matching operands followed by the
concatenated operand lists of the matching ones.  When it is not, the
Python function has no return statement on that path and returns the
value None. -/
def combine_operators (tree : Regex) (operator : OpKind) : Regex :=
  if isOfKind operator tree then
    mkSame tree
      ((compOperands tree).filter (fun op => !isOfKind operator op) ++
        (((compOperands tree).filter (fun op => isOfKind operator op)).map compOperands).flatten)
  else .pynone

/-- combine_ands (test.py line 195): flatten one level of And nesting. -/
def combine_ands (tree : Regex) : Regex :=
  combine_operators tree .andK

/-- combine_ors (test.py line 196).  The source passes the class And
here as well - `lambda tree: combine_operators(tree, And)` - so this
pass also targets And nodes, not Or nodes. -/
def combine_ors (tree : Regex) : Regex :=
  combine_operators tree .andK

mutual

/-- Weight measure used to prove termination of the fixpoint driver:
one per node, plus the weights of the operands of an And node (operands
of Or nodes are never rearranged by the And-flattening passes). -/
def wt : Regex → Nat
  | .And ops => 1 + wtL ops
  | _ => 1
termination_by t => sizeOf t
decreasing_by all_goals (simp_wf; try omega)

/-- Sum of the weights of a list of nodes. -/
def wtL : List Regex → Nat
  | [] => 0
  | op :: ops => wt op + wtL ops
termination_by l => sizeOf l
decreasing_by all_goals (simp_wf; try omega)

end

theorem wtL_append (xs ys : List Regex) : wtL (xs ++ ys) = wtL xs + wtL ys := by
  induction xs with
  | nil => simp [wtL]
  | cons x xs ih => simp [wtL, ih]; omega

theorem wt_pos (t : Regex) : 1 ≤ wt t := by
  cases t <;> simp [wt] <;> omega

theorem wtL_flatten_of_kind (l : List Regex) (h : ∀ m ∈ l, isOfKind .andK m = true) :
    wtL ((l.map compOperands).flatten) + l.length = wtL l := by
  induction l with
  | nil => simp [wtL]
  | cons m ms ih =>
      have hm := h m (by simp)
      have hwtm : wt m = 1 + wtL (compOperands m) := by
        cases m <;> simp_all [isOfKind, compOperands, wt]
      have := ih (fun r hr => h r (by simp [hr]))
      simp [List.flatten, wtL_append, wtL, hwtm]
      omega

theorem wtL_filter_split (ops : List Regex) :
    wtL (ops.filter (fun op => !isOfKind .andK op)) +
      wtL (ops.filter (fun op => isOfKind .andK op)) = wtL ops := by
  induction ops with
  | nil => simp [wtL]
  | cons x xs ih =>
      by_cases hx : isOfKind .andK x = true <;>
        simp [List.filter, hx, wtL] <;> omega

theorem combine_ands_on_and (ops : List Regex) :
    combine_ands (.And ops) =
      .And (ops.filter (fun op => !isOfKind .andK op) ++
        ((ops.filter (fun op => isOfKind .andK op)).map compOperands).flatten) := by
  simp [combine_ands, combine_operators, isOfKind, mkSame, compOperands]

/-- Each And-flattening pass reduces the weight of an And node by
exactly the number of its direct And children. -/
theorem wt_combine_ands (ops : List Regex) :
    wt (combine_ands (.And ops)) +
      (ops.filter (fun op => isOfKind .andK op)).length = wt (.And ops) := by
  rw [combine_ands_on_and]
  have h1 := wtL_flatten_of_kind (ops.filter (fun op => isOfKind .andK op))
    (fun m hm => (List.mem_filter.mp hm).2)
  have h2 := wtL_filter_split ops
  simp [wt, wtL_append]
  omega

/-- When an And node has no direct And children, the flattening pass
returns a node with the same operand list. -/
theorem combine_ands_fixed (ops : List Regex)
    (h : ops.filter (fun op => isOfKind .andK op) = []) :
    combine_ands (.And ops) = .And ops := by
  rw [combine_ands_on_and, h]
  have : ops.filter (fun op => !isOfKind .andK op) = ops := by
    rw [List.filter_eq_self]
    intro a ha
    by_contra hcon
    have : a ∈ ops.filter (fun op => isOfKind .andK op) := by
      rw [List.mem_filter]
      exact ⟨ha, by simpa using hcon⟩
    simp [h] at this
  simp [this]

/-- The composite step new_tree = combine_ands (combine_ors tree)
strictly decreases the weight whenever the driver loops (the comparison
returned False). -/
theorem step_decrease (t : Regex)
    (hf : pyEq (combine_ands (combine_ors t)) t = some false) :
    wt (combine_ands (combine_ors t)) < wt t := by
  cases t with
  | pynone => simp [combine_ors, combine_ands, combine_operators, isOfKind, pyEq] at hf
  | Literal c => simp [combine_ors, combine_ands, combine_operators, isOfKind, pyEq] at hf
  | Or ops => simp [combine_ors, combine_ands, combine_operators, isOfKind, pyEq] at hf
  | And ops =>
      have hu : combine_ors (Regex.And ops) = combine_ands (Regex.And ops) := rfl
      rw [hu] at hf ⊢
      rcases h2 : ops.filter (fun op => isOfKind .andK op) with _ | ⟨m, ms⟩
      · rw [combine_ands_fixed ops h2, combine_ands_fixed ops h2, pyEq_refl] at hf
        simp at hf
      · have h1 := wt_combine_ands ops
        have h3 := wt_combine_ands (ops.filter (fun op => !isOfKind .andK op) ++
          ((ops.filter (fun op => isOfKind .andK op)).map compOperands).flatten)
        rw [← combine_ands_on_and ops] at h3
        rw [h2] at h1
        simp at h1
        omega

/-- Embedding of run_until_unchanged (test.py lines 172-181) applied to
the transform list [combine_ors, combine_ands] with which simplify
invokes it (test.py line 197).  One iteration computes new_tree =
combine_ands (combine_ors tree) (the reduce over the transform list;
applying a combine pass to the value None yields None again, which both
passes return unchanged as modelled by combine_operators on pynone).
Then the Python comparison `new_tree == tree` runs: if it raises
(modelled by pyEq returning none, which happens in particular when
new_tree is None and tree is a node, because the reflected __eq__
evaluates None.operands) the whole call raises, modelled by a none
result; if it returns True the current tree is returned; otherwise the
loop continues from new_tree. -/
def run_until_unchanged (tree : Regex) : Option Regex :=
  match hf : pyEq (combine_ands (combine_ors tree)) tree with
  | none => none
  | some true => some tree
  | some false => run_until_unchanged (combine_ands (combine_ors tree))
termination_by wt tree
decreasing_by exact step_decrease tree hf

/-- simplify (test.py line 197). -/
def simplify (tree : Regex) : Option Regex :=
  run_until_unchanged tree

theorem run_until_unchanged_eq_none (tree : Regex)
    (h : pyEq (combine_ands (combine_ors tree)) tree = none) :
    run_until_unchanged tree = none := by
  rw [run_until_unchanged]
  split
  · rfl
  · rename_i heq
    rw [h] at heq
    cases heq
  · rename_i heq
    rw [h] at heq
    cases heq

theorem run_until_unchanged_eq_ret (tree : Regex)
    (h : pyEq (combine_ands (combine_ors tree)) tree = some true) :
    run_until_unchanged tree = some tree := by
  rw [run_until_unchanged]
  split
  · rename_i heq
    rw [h] at heq
    cases heq
  · rfl
  · rename_i heq
    rw [h] at heq
    cases heq

theorem run_until_unchanged_eq_step (tree : Regex)
    (h : pyEq (combine_ands (combine_ors tree)) tree = some false) :
    run_until_unchanged tree =
      run_until_unchanged (combine_ands (combine_ors tree)) := by
  rw [run_until_unchanged]
  split
  · rename_i heq
    rw [h] at heq
    cases heq
  · rename_i heq
    rw [h] at heq
    cases heq
  · rfl

example : simplify (.Literal 'a') = none := by
  rw [simplify]
  rw [run_until_unchanged_eq_none]
  simp [combine_ands, combine_ors, combine_operators, isOfKind, pyEq]

example : simplify (.And [.Literal 'a', .And [.Literal 'b', .Literal 'c']]) =
    some (.And [.Literal 'a', .Literal 'b', .Literal 'c']) := by
  rw [simplify]
  rw [run_until_unchanged_eq_step _ (by
    simp [combine_ands, combine_ors, combine_operators, isOfKind, pyEq, mkSame,
      compOperands, pyEqScan, litCmpOps])]
  show run_until_unchanged (.And [.Literal 'a', .Literal 'b', .Literal 'c']) = _
  rw [run_until_unchanged_eq_ret _ (by
    simp [combine_ands, combine_ors, combine_operators, isOfKind, pyEq, mkSame,
      compOperands, pyEqScan, litCmpOps])]

/-- Errors raised by the parser of test.py lines 71-170: reading s[0]
from an empty string raises IndexError (unexpectedEnd, the "unexpected
end of pattern" case); the statement `assert rest[0] == ')'` in regex
fails (expectedCloseParen); the statement `assert not rest` in parse
fails (trailingInput).  outOfFuel is an artifact of the embedding; the
top-level parse supplies enough fuel that it never occurs. -/
inductive ParseError where
  | unexpectedEnd
  | expectedCloseParen
  | trailingInput
  | outOfFuel

/-- Names for the four mutually recursive parse procedures of test.py:
chars, group, concat and regex. -/
inductive PRule where
  | charsR
  | groupR
  | concatR
  | regexR

/-- Embedding of the recursive-descent parser (test.py lines 97-170) as
one function over a fuel counter; each procedure call consumes one unit
of fuel, and the recursion depth of the source parser is bounded by
three times the remaining input length plus three, so the fuel supplied
by parse is never exhausted.

chars (lines 156-170): on a symbol in "])" return (None, s) without
consuming; otherwise recurse past the first symbol and wrap the result
in a right-nested Or chain, `if chrs:` distinguishing the None result
(a bare Literal is returned) from a node (always truthy in Python 2).

group (lines 136-154): on a leading parenthesis parse a regex and drop
one symbol of its remainder (without checking that symbol); on a
leading bracket likewise with chars; otherwise consume one symbol as a
Literal.

concat (lines 117-134): parse a group; if the remainder is empty or
starts with a vertical bar or a closing parenthesis, return it alone,
and otherwise wrap it with a recursively parsed concat in a binary And.

regex (lines 97-115): parse a concat; on an empty remainder return it;
on a leading vertical bar wrap it with a recursively parsed regex in a
binary Or; otherwise assert that the remainder starts with a closing
parenthesis. -/
def parseStep : Nat → PRule → List Char → Except ParseError (Regex × List Char)
  | 0, _, _ => .error .outOfFuel
  | _ + 1, .charsR, [] => .error .unexpectedEnd
  | fuel + 1, .charsR, c :: rest =>
      if c = ']' ∨ c = ')' then .ok (.pynone, c :: rest)
      else
        match parseStep fuel .charsR rest with
        | .error e => .error e
        | .ok (.pynone, rest1) => .ok (.Literal c, rest1)
        | .ok (chrs, rest1) => .ok (.Or [.Literal c, chrs], rest1)
  | _ + 1, .groupR, [] => .error .unexpectedEnd
  | fuel + 1, .groupR, c :: rest =>
      if c = '(' then
        match parseStep fuel .regexR rest with
        | .error e => .error e
        | .ok (t, rest1) => .ok (t, rest1.drop 1)
      else if c = '[' then
        match parseStep fuel .charsR rest with
        | .error e => .error e
        | .ok (t, rest1) => .ok (t, rest1.drop 1)
      else .ok (.Literal c, rest)
  | fuel + 1, .concatR, s =>
      match parseStep fuel .groupR s with
      | .error e => .error e
      | .ok (t, []) => .ok (t, [])
      | .ok (t, d :: r) =>
          if d = '|' ∨ d = ')' then .ok (t, d :: r)
          else
            match parseStep fuel .concatR (d :: r) with
            | .error e => .error e
            | .ok (t2, rest2) => .ok (.And [t, t2], rest2)
  | fuel + 1, .regexR, s =>
      match parseStep fuel .concatR s with
      | .error e => .error e
      | .ok (t, []) => .ok (t, [])
      | .ok (t, d :: r) =>
          if d = '|' then
            match parseStep fuel .regexR r with
            | .error e => .error e
            | .ok (t2, rest2) => .ok (.Or [t, t2], rest2)
          else if d = ')' then .ok (t, d :: r)
          else .error .expectedCloseParen

/-- Embedding of parse (test.py lines 71-95): run regex on the whole
pattern and fail on a non-empty remainder (the assert). -/
def parse (s : List Char) : Except ParseError Regex :=
  match parseStep (3 * s.length + 3) .regexR s with
  | .error e => .error e
  | .ok (t, rest) => if rest.isEmpty then .ok t else .error .trailingInput

example :
    parse ['[', 'a', 'b', ']', 'c', '|', 'd', 'e'] =
      .ok (.Or [.And [.Or [.Literal 'a', .Literal 'b'], .Literal 'c'],
        .And [.Literal 'd', .Literal 'e']]) := by
  rfl

example : parse ['[', ']'] = .ok .pynone := by rfl

example : parse ['[', ']', 'a'] = .ok (.And [.pynone, .Literal 'a']) := by rfl

example : parse [] = .error .unexpectedEnd := by rfl

/-- A plain symbol of the pattern language: a character that is none of
the five metacharacters used by the grammar of spec section 4.2. -/
def isSym (c : Char) : Prop :=
  c ≠ '(' ∧ c ≠ ')' ∧ c ≠ '[' ∧ c ≠ ']' ∧ c ≠ '|'

mutual

/-- Modelled from the spec: the rule `regex := concat ('|' regex)?` of
the grammar in section 4.2 (also the docstring grammar of test.py lines
78-91), as a predicate saying that a string is derivable. -/
inductive GRegex : List Char → Prop where
  | cat : ∀ {s}, GConcat s → GRegex s
  | alt : ∀ {s1 s2}, GConcat s1 → GRegex s2 → GRegex (s1 ++ '|' :: s2)

/-- Modelled from the spec: the rule `concat := group concat?`. -/
inductive GConcat : List Char → Prop where
  | one : ∀ {s}, GGroup s → GConcat s
  | more : ∀ {s1 s2}, GGroup s1 → GConcat s2 → GConcat (s1 ++ s2)

/-- Modelled from the spec: the rule
`group := '(' regex ')' | '[' chars ']' | symbol`. -/
inductive GGroup : List Char → Prop where
  | sym : ∀ {c}, isSym c → GGroup [c]
  | paren : ∀ {s}, GRegex s → GGroup ('(' :: s ++ [')'])
  | cls : ∀ {s}, GChars s → GGroup ('[' :: s ++ [']'])

/-- Modelled from the spec: the rule `chars := symbol chars?`, where a
class member is any character other than the two terminators on which
the chars procedure stops (spec section 4.2: symbols are read until a
closing bracket or parenthesis is encountered). -/
inductive GChars : List Char → Prop where
  | one : ∀ {c}, c ≠ ']' → c ≠ ')' → GChars [c]
  | more : ∀ {c s}, c ≠ ']' → c ≠ ')' → GChars s → GChars (c :: s)

end

theorem GGroup_head {g : List Char} (h : GGroup g) :
    ∃ c r, g = c :: r ∧ c ≠ '|' ∧ c ≠ ')' := by
  cases h with
  | sym hc => exact ⟨_, _, rfl, hc.2.2.2.2, hc.2.1⟩
  | paren hs => exact ⟨'(', _, rfl, by decide, by decide⟩
  | cls hs => exact ⟨'[', _, rfl, by decide, by decide⟩

theorem GConcat_head {g : List Char} (h : GConcat g) :
    ∃ c r, g = c :: r ∧ c ≠ '|' ∧ c ≠ ')' := by
  cases h with
  | one hg => exact GGroup_head hg
  | more hg hc =>
      obtain ⟨c, r, rfl, hc1, hc2⟩ := GGroup_head hg
      exact ⟨c, _, rfl, hc1, hc2⟩

/-- Soundness of the fueled parser on grammatical input, proven for all
four procedures simultaneously by induction on the measure
4 * length + rank, with rank ordering chars, group, concat, regex at
equal remaining length.  Each procedure, run on a derivable string
followed by suitable trailing input and given fuel at least three times
the string length plus a small constant, returns an Expression Tree
token and stops exactly at the trailing input. -/
theorem parseStep_sound :
    ∀ n : Nat,
      (∀ g, GChars g → 4 * g.length ≤ n → ∀ d r f, (d = ']' ∨ d = ')') →
        g.length + 1 ≤ f →
        ∃ t, isExpr t = true ∧ parseStep f .charsR (g ++ d :: r) = .ok (t, d :: r)) ∧
      (∀ g, GGroup g → 4 * g.length + 1 ≤ n → ∀ rest f, 3 * g.length + 1 ≤ f →
        ∃ t, isExpr t = true ∧ parseStep f .groupR (g ++ rest) = .ok (t, rest)) ∧
      (∀ g, GConcat g → 4 * g.length + 2 ≤ n → ∀ rest f,
        (rest = [] ∨ ∃ d r, rest = d :: r ∧ (d = '|' ∨ d = ')')) →
        3 * g.length + 2 ≤ f →
        ∃ t, isExpr t = true ∧ parseStep f .concatR (g ++ rest) = .ok (t, rest)) ∧
      (∀ g, GRegex g → 4 * g.length + 3 ≤ n → ∀ rest f,
        (rest = [] ∨ ∃ r, rest = ')' :: r) →
        3 * g.length + 3 ≤ f →
        ∃ t, isExpr t = true ∧ parseStep f .regexR (g ++ rest) = .ok (t, rest)) := by
  intro n
  induction n with
  | zero =>
      refine ⟨?_, ?_, ?_, ?_⟩
      · intro g hg hn
        cases hg <;> simp at hn
      · intro g hg hn
        omega
      · intro g hg hn
        omega
      · intro g hg hn
        omega
  | succ n ih =>
      obtain ⟨ihC, ihG, ihK, ihR⟩ := ih
      refine ⟨?_, ?_, ?_, ?_⟩
      -- chars
      · intro g hg hn d r f hd hf
        cases hg with
        | one hc1 hc2 =>
            rename_i c
            obtain ⟨f2, rfl⟩ : ∃ f2, f = f2 + 1 + 1 := ⟨f - 2, by simp at hf ⊢; omega⟩
            refine ⟨.Literal c, by simp [isExpr], ?_⟩
            rcases hd with rfl | rfl <;>
              simp [parseStep, hc1, hc2]
        | more hc1 hc2 hs =>
            rename_i c s
            obtain ⟨f1, rfl⟩ : ∃ f1, f = f1 + 1 := ⟨f - 1, by simp at hf ⊢; omega⟩
            have hlen : 4 * s.length ≤ n := by simp at hn; omega
            obtain ⟨t1, ht1, hstep⟩ := ihC s hs hlen d r f1 hd (by simp at hf; omega)
            refine ⟨.Or [.Literal c, t1], by cases t1 <;> simp_all [isExpr], ?_⟩
            rw [show (c :: s) ++ d :: r = c :: (s ++ d :: r) from rfl]
            rw [parseStep]
            rw [if_neg (by simp [hc1, hc2])]
            rw [hstep]
            cases t1 <;> simp_all [isExpr]
      -- group
      · intro g hg hn rest f hf
        cases hg with
        | sym hc =>
            rename_i c
            obtain ⟨f1, rfl⟩ : ∃ f1, f = f1 + 1 := ⟨f - 1, by simp at hf ⊢; omega⟩
            refine ⟨.Literal c, by simp [isExpr], ?_⟩
            rw [show [c] ++ rest = c :: rest from rfl]
            rw [parseStep]
            rw [if_neg hc.1, if_neg hc.2.2.1]
        | paren hs =>
            rename_i s
            obtain ⟨f1, rfl⟩ : ∃ f1, f = f1 + 1 := ⟨f - 1, by simp at hf ⊢; omega⟩
            have hlen : 4 * s.length + 3 ≤ n := by simp at hn; omega
            obtain ⟨t1, ht1, hstep⟩ := ihR s hs hlen (')' :: rest) f1
              (Or.inr ⟨rest, rfl⟩) (by simp at hf; omega)
            refine ⟨t1, ht1, ?_⟩
            rw [show ('(' :: s ++ [')']) ++ rest = '(' :: (s ++ ')' :: rest) from by simp]
            rw [parseStep]
            rw [if_pos rfl]
            rw [hstep]
            simp
        | cls hs =>
            rename_i s
            obtain ⟨f1, rfl⟩ : ∃ f1, f = f1 + 1 := ⟨f - 1, by simp at hf ⊢; omega⟩
            have hlen : 4 * s.length ≤ n := by simp at hn; omega
            obtain ⟨t1, ht1, hstep⟩ := ihC s hs hlen ']' rest f1 (Or.inl rfl)
              (by simp at hf; omega)
            refine ⟨t1, ht1, ?_⟩
            rw [show ('[' :: s ++ [']']) ++ rest = '[' :: (s ++ ']' :: rest) from by simp]
            rw [parseStep]
            rw [if_neg (by decide), if_pos rfl]
            rw [hstep]
            simp
      -- concat
      · intro g hg hn rest f hrest hf
        cases hg with
        | one hgr =>
            obtain ⟨f1, rfl⟩ : ∃ f1, f = f1 + 1 := ⟨f - 1, by omega⟩
            have hlen : 4 * g.length + 1 ≤ n := by omega
            obtain ⟨t1, ht1, hstep⟩ := ihG g hgr hlen rest f1 (by omega)
            refine ⟨t1, ht1, ?_⟩
            rw [parseStep]
            rw [hstep]
            rcases hrest with rfl | ⟨d, r, rfl, hd⟩
            · rfl
            · simp [hd]
        | more hg1 hg2 =>
            rename_i g1 g2
            obtain ⟨f1, rfl⟩ : ∃ f1, f = f1 + 1 := ⟨f - 1, by omega⟩
            obtain ⟨c2, r2, hg2eq, hc2a, hc2b⟩ := GConcat_head hg2
            subst hg2eq
            have hlg1 : 1 ≤ g1.length := by
              obtain ⟨c1, r1, rfl, -, -⟩ := GGroup_head hg1
              simp
            have hlen1 : 4 * g1.length + 1 ≤ n := by simp at hn; omega
            obtain ⟨t1, ht1, hstep1⟩ := ihG g1 hg1 hlen1 ((c2 :: r2) ++ rest) f1
              (by simp at hf ⊢; omega)
            have hlen2 : 4 * (c2 :: r2).length + 2 ≤ n := by simp at hn ⊢; omega
            obtain ⟨t2, ht2, hstep2⟩ := ihK (c2 :: r2) hg2 hlen2 rest f1 hrest
              (by simp at hf ⊢; omega)
            refine ⟨.And [t1, t2], by simp_all [isExpr], ?_⟩
            rw [List.append_assoc]
            rw [parseStep]
            simp only [List.cons_append] at hstep1 hstep2 ⊢
            rw [hstep1]
            simp [hc2a, hc2b, hstep2]
      -- regex
      · intro g hg hn rest f hrest hf
        cases hg with
        | cat hk =>
            obtain ⟨f1, rfl⟩ : ∃ f1, f = f1 + 1 := ⟨f - 1, by omega⟩
            have hlen : 4 * g.length + 2 ≤ n := by omega
            have hrest2 : rest = [] ∨ ∃ d r, rest = d :: r ∧ (d = '|' ∨ d = ')') := by
              rcases hrest with rfl | ⟨r, rfl⟩
              · exact Or.inl rfl
              · exact Or.inr ⟨')', r, rfl, Or.inr rfl⟩
            obtain ⟨t1, ht1, hstep⟩ := ihK g hk hlen rest f1 hrest2 (by omega)
            refine ⟨t1, ht1, ?_⟩
            rw [parseStep]
            rw [hstep]
            rcases hrest with rfl | ⟨r, rfl⟩
            · rfl
            · simp
        | alt hk1 hr2 =>
            rename_i g1 g2
            obtain ⟨f1, rfl⟩ : ∃ f1, f = f1 + 1 := ⟨f - 1, by omega⟩
            have hlg1 : 1 ≤ g1.length := by
              obtain ⟨c1, r1, rfl, -, -⟩ := GConcat_head hk1
              simp
            have hlen1 : 4 * g1.length + 2 ≤ n := by simp at hn; omega
            obtain ⟨t1, ht1, hstep1⟩ := ihK g1 hk1 hlen1 ('|' :: (g2 ++ rest)) f1
              (Or.inr ⟨'|', g2 ++ rest, rfl, Or.inl rfl⟩) (by simp at hf ⊢; omega)
            have hlen2 : 4 * g2.length + 3 ≤ n := by simp at hn; omega
            obtain ⟨t2, ht2, hstep2⟩ := ihR g2 hr2 hlen2 rest f1 hrest
              (by simp at hf; omega)
            refine ⟨.Or [t1, t2], by simp_all [isExpr], ?_⟩
            rw [show (g1 ++ '|' :: g2) ++ rest = g1 ++ '|' :: (g2 ++ rest) from by simp]
            rw [parseStep]
            rw [hstep1]
            simp [hstep2]

/-- On any pattern derivable from the grammar, parse succeeds and
returns an Expression Tree (never the None value). -/
theorem parse_sound (s : List Char) (h : GRegex s) :
    ∃ t, isExpr t = true ∧ parse s = .ok t := by
  obtain ⟨t, ht, hstep⟩ := (parseStep_sound (4 * s.length + 3)).2.2.2 s h (by omega)
    [] (3 * s.length + 3) (Or.inl rfl) (by omega)
  simp only [List.append_nil] at hstep
  refine ⟨t, ht, ?_⟩
  simp [parse, hstep]

/-- Whenever the top-level regex call leaves unconsumed input, parse
fails with the trailing-input error (the assert in test.py line 94). -/
theorem parse_trailing (s : List Char) (t : Regex) (d : Char) (r : List Char)
    (h : parseStep (3 * s.length + 3) .regexR s = .ok (t, d :: r)) :
    parse s = .error .trailingInput := by
  simp [parse, h]

/-- The cursor after a match is always a suffix of the cursor before it:
matching only ever pops elements from the front. -/
theorem matchE_suffix :
    ∀ (t : Regex) (s : List Char) (b : Bool) (s1 : List Char),
      matchE t s = some (b, s1) → ∃ p, s = p ++ s1
  | .pynone, s, b, s1 => by
      intro h
      rw [matchE] at h
      cases h
  | .Literal c, [], b, s1 => by
      intro h
      rw [matchE] at h
      simp at h
      exact ⟨[], by simp [h]⟩
  | .Literal c, x :: r, b, s1 => by
      intro h
      rw [matchE] at h
      by_cases hx : x = c
      · rw [if_pos hx] at h
        simp at h
        exact ⟨[x], by simp [h]⟩
      · rw [if_neg hx] at h
        simp at h
        exact ⟨[], by simp [h]⟩
  | .And [], s, b, s1 => by
      intro h
      rw [matchE] at h
      simp at h
      exact ⟨[], by simp [h]⟩
  | .And (op :: ops), s, b, s1 => by
      intro h
      rw [matchE] at h
      rcases hm : matchE op s with _ | ⟨b2, s2⟩
      · rw [hm] at h
        cases h
      · rw [hm] at h
        obtain ⟨p1, hp1⟩ := matchE_suffix op s b2 s2 hm
        cases b2 with
        | true =>
            simp at h
            obtain ⟨p2, hp2⟩ := matchE_suffix (.And ops) s2 b s1 h
            exact ⟨p1 ++ p2, by simp [hp1, hp2]⟩
        | false =>
            simp at h
            exact ⟨p1, by simp [hp1, h.2]⟩
  | .Or [], s, b, s1 => by
      intro h
      rw [matchE] at h
      simp at h
      exact ⟨[], by simp [h]⟩
  | .Or (op :: ops), s, b, s1 => by
      intro h
      rw [matchE] at h
      rcases hm : matchE op s with _ | ⟨b2, s2⟩
      · rw [hm] at h
        cases h
      · rw [hm] at h
        obtain ⟨p1, hp1⟩ := matchE_suffix op s b2 s2 hm
        cases b2 with
        | true =>
            simp at h
            exact ⟨p1, by simp [hp1, h.2]⟩
        | false =>
            simp at h
            obtain ⟨p2, hp2⟩ := matchE_suffix (.Or ops) s2 b s1 h
            exact ⟨p1 ++ p2, by simp [hp1, hp2]⟩
termination_by t _ _ _ => sizeOf t
decreasing_by all_goals (simp_wf; try omega)

/-- Matching an Expression Tree never raises: on None-free trees the
matcher always returns a boolean and a cursor. -/
theorem matchE_total :
    ∀ (t : Regex), isExpr t = true → ∀ (s : List Char),
      ∃ b s1, matchE t s = some (b, s1)
  | .pynone => by
      intro h
      rw [isExpr] at h
      cases h
  | .Literal c => by
      intro _ s
      cases s with
      | nil => exact ⟨false, [], by rw [matchE]⟩
      | cons x r =>
          by_cases hx : x = c
          · exact ⟨true, r, by rw [matchE, if_pos hx]⟩
          · exact ⟨false, x :: r, by rw [matchE, if_neg hx]⟩
  | .And [] => by
      intro _ s
      exact ⟨true, s, by rw [matchE]⟩
  | .And (op :: ops) => by
      intro h s
      rw [isExpr] at h
      simp at h
      obtain ⟨b1, s1, hm⟩ := matchE_total op h.1 s
      cases b1 with
      | true =>
          obtain ⟨b2, s2, hm2⟩ := matchE_total (.And ops) h.2 s1
          exact ⟨b2, s2, by rw [matchE, hm]; simpa using hm2⟩
      | false => exact ⟨false, s1, by rw [matchE, hm]⟩
  | .Or [] => by
      intro _ s
      exact ⟨false, s, by rw [matchE]⟩
  | .Or (op :: ops) => by
      intro h s
      rw [isExpr] at h
      simp at h
      obtain ⟨b1, s1, hm⟩ := matchE_total op h.1 s
      cases b1 with
      | true => exact ⟨true, s1, by rw [matchE, hm]⟩
      | false =>
          obtain ⟨b2, s2, hm2⟩ := matchE_total (.Or ops) h.2 s1
          exact ⟨b2, s2, by rw [matchE, hm]; simpa using hm2⟩
termination_by t => sizeOf t
decreasing_by all_goals (simp_wf; try omega)

/-- Frame property of matching: as long as the remaining cursor is
non-empty, the whole run never inspected the end of the input, so
appending extra input changes neither the boolean result nor the
consumed part. -/
theorem matchE_ext :
    ∀ (t : Regex) (s u : List Char) (b : Bool) (s1 : List Char),
      matchE t s = some (b, s1) → s1 ≠ [] →
      matchE t (s ++ u) = some (b, s1 ++ u)
  | .pynone, s, u, b, s1 => by
      intro h hne
      rw [matchE] at h
      cases h
  | .Literal c, [], u, b, s1 => by
      intro h hne
      rw [matchE] at h
      simp at h
      exact absurd h.2 hne
  | .Literal c, x :: r, u, b, s1 => by
      intro h hne
      rw [matchE] at h
      by_cases hx : x = c
      · rw [if_pos hx] at h
        simp at h
        rw [show (x :: r) ++ u = x :: (r ++ u) from rfl, matchE, if_pos hx]
        simp [h.1, h.2]
      · rw [if_neg hx] at h
        simp at h
        rw [show (x :: r) ++ u = x :: (r ++ u) from rfl, matchE, if_neg hx]
        simp [h.1, ← h.2]
  | .And [], s, u, b, s1 => by
      intro h hne
      rw [matchE] at h
      simp at h
      rw [matchE]
      simp [h.1, ← h.2]
  | .And (op :: ops), s, u, b, s1 => by
      intro h hne
      rw [matchE] at h
      rcases hm : matchE op s with _ | ⟨b2, s2⟩
      · rw [hm] at h
        cases h
      · rw [hm] at h
        cases b2 with
        | true =>
            simp at h
            have hs2 : s2 ≠ [] := by
              obtain ⟨p, hp⟩ := matchE_suffix (.And ops) s2 b s1 h
              intro hcon
              rw [hcon] at hp
              have := List.append_eq_nil.mp hp.symm
              exact hne this.2
            have hext1 := matchE_ext op s u true s2 hm hs2
            have hext2 := matchE_ext (.And ops) s2 u b s1 h hne
            rw [matchE, hext1]
            simpa using hext2
        | false =>
            simp at h
            have hext1 := matchE_ext op s u false s2 hm (h.2 ▸ hne)
            rw [matchE, hext1]
            simp [h.1, ← h.2]
  | .Or [], s, u, b, s1 => by
      intro h hne
      rw [matchE] at h
      simp at h
      rw [matchE]
      simp [h.1, ← h.2]
  | .Or (op :: ops), s, u, b, s1 => by
      intro h hne
      rw [matchE] at h
      rcases hm : matchE op s with _ | ⟨b2, s2⟩
      · rw [hm] at h
        cases h
      · rw [hm] at h
        cases b2 with
        | true =>
            simp at h
            have hext1 := matchE_ext op s u true s2 hm (h.2 ▸ hne)
            rw [matchE, hext1]
            simp [h.1, ← h.2]
        | false =>
            simp at h
            have hs2 : s2 ≠ [] := by
              obtain ⟨p, hp⟩ := matchE_suffix (.Or ops) s2 b s1 h
              intro hcon
              rw [hcon] at hp
              have := List.append_eq_nil.mp hp.symm
              exact hne this.2
            have hext1 := matchE_ext op s u false s2 hm hs2
            have hext2 := matchE_ext (.Or ops) s2 u b s1 h hne
            rw [matchE, hext1]
            simpa using hext2
termination_by t _ _ _ _ => sizeOf t
decreasing_by all_goals (simp_wf; try omega)

/-- An Expression Tree that matches the empty cursor successfully
matches every cursor: such a success can only come from empty And
conjunctions and alternatives around them. -/
theorem matchE_empty_univ :
    ∀ (t : Regex), isExpr t = true →
      ∀ (s1 : List Char), matchE t [] = some (true, s1) →
      ∀ (y : List Char), ∃ r1, matchE t y = some (true, r1)
  | .pynone => by
      intro h
      rw [isExpr] at h
      cases h
  | .Literal c => by
      intro _ s1 h
      rw [matchE] at h
      cases h
  | .And [] => by
      intro _ s1 h y
      exact ⟨y, by rw [matchE]⟩
  | .And (op :: ops) => by
      intro hx s1 h y
      rw [isExpr] at hx
      simp at hx
      rw [matchE] at h
      rcases hm : matchE op [] with _ | ⟨b2, s2⟩
      · rw [hm] at h
        cases h
      · rw [hm] at h
        cases b2 with
        | false => simp at h
        | true =>
            simp at h
            have hs2 : s2 = [] := by
              obtain ⟨p, hp⟩ := matchE_suffix op [] true s2 hm
              exact (List.append_eq_nil.mp hp.symm).2
            rw [hs2] at h
            obtain ⟨y1, hy1⟩ := matchE_empty_univ op hx.1 s2 (hs2 ▸ hm) y
            obtain ⟨y2, hy2⟩ := matchE_empty_univ (.And ops) hx.2 s1 h y1
            exact ⟨y2, by rw [matchE, hy1]; simpa using hy2⟩
  | .Or [] => by
      intro _ s1 h
      rw [matchE] at h
      cases h
  | .Or (op :: ops) => by
      intro hx s1 h y
      rw [isExpr] at hx
      simp at hx
      rw [matchE] at h
      rcases hm : matchE op [] with _ | ⟨b2, s2⟩
      · rw [hm] at h
        cases h
      · rw [hm] at h
        cases b2 with
        | true =>
            obtain ⟨y1, hy1⟩ := matchE_empty_univ op hx.1 s2 hm y
            exact ⟨y1, by rw [matchE, hy1]⟩
        | false =>
            simp at h
            have hs2 : s2 = [] := by
              obtain ⟨p, hp⟩ := matchE_suffix op [] false s2 hm
              exact (List.append_eq_nil.mp hp.symm).2
            rw [hs2] at h
            obtain ⟨b3, y3, hy3⟩ := matchE_total op hx.1 y
            cases b3 with
            | true => exact ⟨y3, by rw [matchE, hy3]⟩
            | false =>
                obtain ⟨y4, hy4⟩ := matchE_empty_univ (.Or ops) hx.2 s1 h y3
                exact ⟨y4, by rw [matchE, hy3]; simpa using hy4⟩
termination_by t => sizeOf t
decreasing_by all_goals (simp_wf; try omega)

/-- A successful match of an Expression Tree on a subject stays
successful when the subject is extended on the right. -/
theorem matchE_true_ext :
    ∀ (t : Regex), isExpr t = true →
      ∀ (s u s1 : List Char), matchE t s = some (true, s1) →
      ∃ r1, matchE t (s ++ u) = some (true, r1)
  | .pynone => by
      intro h
      rw [isExpr] at h
      cases h
  | .Literal c => by
      intro _ s u s1 h
      cases s with
      | nil =>
          rw [matchE] at h
          cases h
      | cons x r =>
          rw [matchE] at h
          by_cases hx : x = c
          · rw [if_pos hx] at h
            refine ⟨r ++ u, ?_⟩
            rw [show (x :: r) ++ u = x :: (r ++ u) from rfl, matchE, if_pos hx]
          · rw [if_neg hx] at h
            cases h
  | .And [] => by
      intro _ s u s1 h
      exact ⟨s ++ u, by rw [matchE]⟩
  | .And (op :: ops) => by
      intro hx s u s1 h
      rw [isExpr] at hx
      simp at hx
      rw [matchE] at h
      rcases hm : matchE op s with _ | ⟨b2, s2⟩
      · rw [hm] at h
        cases h
      · rw [hm] at h
        cases b2 with
        | false => simp at h
        | true =>
            simp at h
            rcases hs2 : s2 with _ | ⟨z, zs⟩
            · rw [hs2] at h
              obtain ⟨y1, hy1⟩ := matchE_true_ext op hx.1 s u s2 hm
              obtain ⟨y2, hy2⟩ := matchE_empty_univ (.And ops) hx.2 s1 h y1
              exact ⟨y2, by rw [matchE, hy1]; simpa using hy2⟩
            · rw [hs2] at hm h
              have hext1 := matchE_ext op s u true (z :: zs) hm (by simp)
              obtain ⟨y2, hy2⟩ := matchE_true_ext (.And ops) hx.2 (z :: zs) u s1 h
              exact ⟨y2, by rw [matchE, hext1]; simpa using hy2⟩
  | .Or [] => by
      intro _ s u s1 h
      rw [matchE] at h
      cases h
  | .Or (op :: ops) => by
      intro hx s u s1 h
      rw [isExpr] at hx
      simp at hx
      rw [matchE] at h
      rcases hm : matchE op s with _ | ⟨b2, s2⟩
      · rw [hm] at h
        cases h
      · rw [hm] at h
        cases b2 with
        | true =>
            obtain ⟨y1, hy1⟩ := matchE_true_ext op hx.1 s u s2 hm
            exact ⟨y1, by rw [matchE, hy1]⟩
        | false =>
            simp at h
            rcases hs2 : s2 with _ | ⟨z, zs⟩
            · rw [hs2] at h
              obtain ⟨b3, y3, hy3⟩ := matchE_total op hx.1 (s ++ u)
              cases b3 with
              | true => exact ⟨y3, by rw [matchE, hy3]⟩
              | false =>
                  obtain ⟨y4, hy4⟩ := matchE_empty_univ (.Or ops) hx.2 s1 h y3
                  exact ⟨y4, by rw [matchE, hy3]; simpa using hy4⟩
            · rw [hs2] at hm h
              have hext1 := matchE_ext op s u false (z :: zs) hm (by simp)
              obtain ⟨y2, hy2⟩ := matchE_true_ext (.Or ops) hx.2 (z :: zs) u s1 h
              exact ⟨y2, by rw [matchE, hext1]; simpa using hy2⟩
termination_by t => sizeOf t
decreasing_by all_goals (simp_wf; try omega)

/-- And-evaluation is left to right with short-circuiting and without
rollback: if the operands of a prefix all match, moving the cursor to
s1, and the next operand fails leaving the cursor at s2, then the whole
conjunction fails with the cursor exactly at s2; the operands after the
failing one are never evaluated and the consumed positions s minus s2
are not restored. -/
theorem and_shortcircuit (op : Regex) (ops2 : List Regex) :
    ∀ (ops1 : List Regex) (s s1 s2 : List Char),
      matchE (.And ops1) s = some (true, s1) →
      matchE op s1 = some (false, s2) →
      matchE (.And (ops1 ++ op :: ops2)) s = some (false, s2) := by
  intro ops1
  induction ops1 with
  | nil =>
      intro s s1 s2 h1 h2
      rw [matchE] at h1
      simp at h1
      subst h1
      rw [List.nil_append, matchE, h2]
  | cons op1 ops1x ih =>
      intro s s1 s2 h1 h2
      rw [matchE] at h1
      rcases hm : matchE op1 s with _ | ⟨b3, s3⟩
      · rw [hm] at h1
        cases h1
      · rw [hm] at h1
        cases b3 with
        | false => simp at h1
        | true =>
            simp at h1
            have hrec := ih s3 s1 s2 h1 h2
            rw [show (op1 :: ops1x) ++ op :: ops2 = op1 :: (ops1x ++ op :: ops2) from rfl]
            rw [matchE, hm]
            simpa using hrec

mutual

/-- The data-model structural equality as the spec amendment states it:
two Literal nodes are equal exactly when their symbols are equal, two
composite nodes - in any combination of And and Or, the variant is not
inspected - are equal exactly when their operand sequences are pairwise
equal in order, the None value equals only itself, and a Literal is
never equal to a composite or to None. -/
def eqNoVar : Regex → Regex → Bool
  | .Literal c, .Literal d => decide (c = d)
  | .And xs, .And ys => eqNoVarList xs ys
  | .And xs, .Or ys => eqNoVarList xs ys
  | .Or xs, .And ys => eqNoVarList xs ys
  | .Or xs, .Or ys => eqNoVarList xs ys
  | .pynone, .pynone => true
  | _, _ => false
termination_by r _ => sizeOf r
decreasing_by all_goals (simp_wf; try omega)

/-- Pairwise in-order equality of two operand sequences. -/
def eqNoVarList : List Regex → List Regex → Bool
  | [], [] => true
  | [], _ :: _ => false
  | _ :: _, [] => false
  | x :: xs, y :: ys => eqNoVar x y && eqNoVarList xs ys
termination_by xs _ => sizeOf xs
decreasing_by all_goals (simp_wf; try omega)

end

theorem eqNoVarList_length :
    ∀ (xs ys : List Regex), eqNoVarList xs ys = true → xs.length = ys.length := by
  intro xs
  induction xs with
  | nil =>
      intro ys h
      cases ys with
      | nil => rfl
      | cons y ys => rw [eqNoVarList] at h; cases h
  | cons x xsx ih =>
      intro ys h
      cases ys with
      | nil => rw [eqNoVarList] at h; cases h
      | cons y ys =>
          rw [eqNoVarList] at h
          simp at h
          simp [ih ys h.2]

theorem litCmpOps_ne_true : ∀ (ops : List Regex), litCmpOps ops ≠ some true := by
  intro ops
  rcases ops with _ | ⟨x, _ | ⟨y, t⟩⟩
  · simp [litCmpOps]
  · cases x <;> simp [litCmpOps]
  · simp [litCmpOps]

mutual

/-- The comparison implemented by `Regex.__eq__` returns True exactly
when the two values are structurally equal with the variant ignored. -/
theorem pyEq_iff_eqNoVar :
    ∀ (r1 r2 : Regex), pyEq r1 r2 = some true ↔ eqNoVar r1 r2 = true
  | .pynone, .pynone => by simp [pyEq, eqNoVar]
  | .pynone, .Literal c => by simp [pyEq, eqNoVar]
  | .pynone, .And ops => by simp [pyEq, eqNoVar]
  | .pynone, .Or ops => by simp [pyEq, eqNoVar]
  | .Literal c, .pynone => by simp [pyEq, eqNoVar]
  | .Literal c, .Literal d => by simp [pyEq, eqNoVar]
  | .Literal c, .And ops => by simp [pyEq, eqNoVar, litCmpOps_ne_true ops]
  | .Literal c, .Or ops => by simp [pyEq, eqNoVar, litCmpOps_ne_true ops]
  | .And ops, .pynone => by simp [pyEq, eqNoVar]
  | .And ops, .Literal c => by simp [pyEq, eqNoVar, litCmpOps_ne_true ops]
  | .And xs, .And ys => by
      by_cases hl : xs.length = ys.length
      · rw [pyEq, if_pos hl, eqNoVar]
        exact pyEqScan_iff_eqNoVarList xs ys hl
      · have hv : eqNoVarList xs ys = false := by
          cases hveq : eqNoVarList xs ys
          · rfl
          · exact absurd (eqNoVarList_length xs ys hveq) hl
        rw [pyEq, if_neg hl, eqNoVar, hv]
        simp
  | .And xs, .Or ys => by
      by_cases hl : xs.length = ys.length
      · rw [pyEq, if_pos hl, eqNoVar]
        exact pyEqScan_iff_eqNoVarList xs ys hl
      · have hv : eqNoVarList xs ys = false := by
          cases hveq : eqNoVarList xs ys
          · rfl
          · exact absurd (eqNoVarList_length xs ys hveq) hl
        rw [pyEq, if_neg hl, eqNoVar, hv]
        simp
  | .Or ops, .pynone => by simp [pyEq, eqNoVar]
  | .Or ops, .Literal c => by simp [pyEq, eqNoVar, litCmpOps_ne_true ops]
  | .Or xs, .And ys => by
      by_cases hl : xs.length = ys.length
      · rw [pyEq, if_pos hl, eqNoVar]
        exact pyEqScan_iff_eqNoVarList xs ys hl
      · have hv : eqNoVarList xs ys = false := by
          cases hveq : eqNoVarList xs ys
          · rfl
          · exact absurd (eqNoVarList_length xs ys hveq) hl
        rw [pyEq, if_neg hl, eqNoVar, hv]
        simp
  | .Or xs, .Or ys => by
      by_cases hl : xs.length = ys.length
      · rw [pyEq, if_pos hl, eqNoVar]
        exact pyEqScan_iff_eqNoVarList xs ys hl
      · have hv : eqNoVarList xs ys = false := by
          cases hveq : eqNoVarList xs ys
          · rfl
          · exact absurd (eqNoVarList_length xs ys hveq) hl
        rw [pyEq, if_neg hl, eqNoVar, hv]
        simp
termination_by r _ => sizeOf r
decreasing_by all_goals (simp_wf; try omega)

/-- List version of the comparison correspondence, assuming the length
check already passed. -/
theorem pyEqScan_iff_eqNoVarList :
    ∀ (xs ys : List Regex), xs.length = ys.length →
      (pyEqScan xs ys = some true ↔ eqNoVarList xs ys = true)
  | [], [] => by simp [pyEqScan, eqNoVarList]
  | [], y :: ys => by intro h; simp at h
  | x :: xs, [] => by intro h; simp at h
  | x :: xs, y :: ys => by
      intro h
      simp at h
      rw [pyEqScan, eqNoVarList]
      rcases hxy : pyEq x y with _ | b
      · have hf : eqNoVar x y = false := by
          cases hv : eqNoVar x y
          · rfl
          · have hc := (pyEq_iff_eqNoVar x y).mpr hv
            rw [hxy] at hc
            cases hc
        simp [hf]
      · cases b with
        | false =>
            have hf : eqNoVar x y = false := by
              cases hv : eqNoVar x y
              · rfl
              · have hc := (pyEq_iff_eqNoVar x y).mpr hv
                rw [hxy] at hc
                cases hc
            simp [hf]
        | true =>
            have ht : eqNoVar x y = true := (pyEq_iff_eqNoVar x y).mp hxy
            simp [ht]
            exact pyEqScan_iff_eqNoVarList xs ys h
termination_by xs _ => sizeOf xs
decreasing_by all_goals (simp_wf; try omega)

end

/-- A result of the fixpoint driver is itself a fixpoint: running the
driver again on it returns it unchanged. -/
theorem run_until_unchanged_idem :
    ∀ (t r : Regex), run_until_unchanged t = some r → run_until_unchanged r = some r
  | t, r => by
      intro h
      rcases hp : pyEq (combine_ands (combine_ors t)) t with _ | b
      · rw [run_until_unchanged_eq_none t hp] at h
        cases h
      · cases b with
        | false =>
            rw [run_until_unchanged_eq_step t hp] at h
            exact run_until_unchanged_idem (combine_ands (combine_ors t)) r h
        | true =>
            rw [run_until_unchanged_eq_ret t hp] at h
            cases h
            exact run_until_unchanged_eq_ret t hp
termination_by t _ => wt t
decreasing_by exact step_decrease t hp

theorem GChars_ne_nil {s : List Char} (h : GChars s) : s ≠ [] := by
  cases h <;> simp

theorem not_GGroup_single_lb : ¬ GGroup ['['] := by
  have hgen : ∀ s, GGroup s → s = ['['] → False := by
    intro s hs
    cases hs with
    | sym hc =>
        intro heq
        simp at heq
        rw [heq] at hc
        exact hc.2.2.1 rfl
    | paren hr =>
        intro heq
        simp at heq
    | cls hc =>
        intro heq
        simp at heq
  intro h
  exact hgen _ h rfl

theorem not_GGroup_pair : ¬ GGroup ['[', ']'] := by
  have hgen : ∀ s, GGroup s → s = ['[', ']'] → False := by
    intro s hs
    cases hs with
    | sym hc =>
        intro heq
        simp at heq
    | paren hr =>
        intro heq
        simp at heq
    | cls hc =>
        intro heq
        rename_i s1
        simp at heq
        rcases s1 with _ | ⟨x, xs⟩
        · exact GChars_ne_nil hc rfl
        · simp at heq
  intro h
  exact hgen _ h rfl

theorem not_GConcat_pair : ¬ GConcat ['[', ']'] := by
  have hgen : ∀ s, GConcat s → s = ['[', ']'] → False := by
    intro s hs
    cases hs with
    | one hg =>
        intro heq
        rw [heq] at hg
        exact not_GGroup_pair hg
    | more hg1 hk2 =>
        intro heq
        obtain ⟨c1, r1, rfl, -, -⟩ := GGroup_head hg1
        obtain ⟨c2, r2, rfl, -, -⟩ := GConcat_head hk2
        simp at heq
        rcases r1 with _ | ⟨x, xs⟩
        · simp at heq
          rw [heq.1] at hg1
          exact not_GGroup_single_lb hg1
        · simp at heq
  intro h
  exact hgen _ h rfl

theorem not_GRegex_pair : ¬ GRegex ['[', ']'] := by
  have hgen : ∀ s, GRegex s → s = ['[', ']'] → False := by
    intro s hs
    cases hs with
    | cat hk =>
        intro heq
        rw [heq] at hk
        exact not_GConcat_pair hk
    | alt hk hr =>
        intro heq
        have hmem : '|' ∈ (['[', ']'] : List Char) := by
          rw [← heq]
          simp
        simp at hmem
  intro h
  exact hgen _ h rfl

example : matchE (.And [.Literal 'a', .Literal 'b']) ['a', 'c'] = some (false, ['c']) := by
  simp [matchE]

example : matchE (.And [.Literal 'a', .Literal 'b']) ['a', 'b', 'c'] = some (true, ['c']) := by
  simp [matchE]

example : callRe (.Or [.Literal 'a', .Literal 'b']) ['b'] = some true := by
  simp [callRe, matchE]

/-- Evaluation of simplify on a Literal root: combine_ors falls off the
end of combine_operators and yields None, combine_ands passes None
through, and the comparison None == tree raises AttributeError. -/
theorem eval_simplify_lit : simplify (.Literal 'a') = none := by
  rw [simplify]
  rw [run_until_unchanged_eq_none]
  simp [combine_ands, combine_ors, combine_operators, isOfKind, pyEq]

/-- Evaluation of simplify on a flat Or root: same failure as on a
Literal root, because neither pass matches an Or node. -/
theorem eval_simplify_or_flat : simplify (.Or [.Literal 'a', .Literal 'b']) = none := by
  rw [simplify]
  rw [run_until_unchanged_eq_none]
  simp [combine_ands, combine_ors, combine_operators, isOfKind, pyEq]

/-- Evaluation of simplify on a nested Or chain: the driver raises on
the first iteration instead of flattening the chain. -/
theorem eval_simplify_or_nested :
    simplify (.Or [.Literal 'a', .Or [.Literal 'b', .Literal 'c']]) = none := by
  rw [simplify]
  rw [run_until_unchanged_eq_none]
  simp [combine_ands, combine_ors, combine_operators, isOfKind, pyEq]

/-- Evaluation of simplify on a flat And root: the first iteration
reproduces the same operand list and the driver returns it. -/
theorem eval_simplify_and :
    simplify (.And [.Literal 'a', .Literal 'b']) = some (.And [.Literal 'a', .Literal 'b']) := by
  rw [simplify]
  rw [run_until_unchanged_eq_ret]
  simp [combine_ands, combine_ors, combine_operators, isOfKind, pyEq, mkSame,
    compOperands, pyEqScan, litCmpOps]

/-- Claim C1: the claim states that simplify terminates normally and
returns a tree on every Expression Tree, whatever the root variant.  In
the code this holds only for And roots: combine_operators has no return
statement for a tree that is not an instance of the operator class, so
both passes map a Literal or Or root to None, and the fixpoint driver
then evaluates None == tree, whose reflected Regex.__eq__ call reads
None.operands and raises AttributeError.  This theorem evaluates the
embedded simplify at both failing root variants and at an And root. -/
theorem claim_C1_simplify_totality :
    simplify (.Literal 'a') = none ∧
    simplify (.Or [.Literal 'a', .Literal 'b']) = none ∧
    simplify (.And [.Literal 'a', .Literal 'b']) = some (.And [.Literal 'a', .Literal 'b']) :=
  ⟨eval_simplify_lit, eval_simplify_or_flat, eval_simplify_and⟩

/-- Claim C2 counterexample: an And node and an Or node with pairwise
equal operand sequences compare equal, because Regex.__eq__ compares
only the operand lists and never the variant; this refutes the part of
the claim stating that nodes of different variants are never equal. -/
theorem claim_C2_counterexample :
    pyEq (.And [.Literal 'a', .Literal 'b']) (.Or [.Literal 'a', .Literal 'b']) = some true := by
  simp [pyEq, pyEqScan]

/-- Claim C2 (amended): node equality returns True exactly when the two
values are structurally equal with the variant ignored: Literal nodes
compare by symbol value, composite nodes - And or Or in any combination
- compare their operand sequences pairwise in order, and a Literal
never compares True to a composite. -/
theorem claim_C2_equality :
    ∀ r1 r2 : Regex, pyEq r1 r2 = some true ↔ eqNoVar r1 r2 = true :=
  pyEq_iff_eqNoVar

/-- Claim C3: the pass named combine_ors is wired to the class And
(test.py line 196), so it returns None on every Or node rather than
flattening it, and simplify on a nested Or chain raises AttributeError
on its first iteration instead of returning the flat n-ary Or that the
claim describes. -/
theorem claim_C3_or_flattening :
    combine_ors (.Or [.Literal 'b', .Literal 'c']) = .pynone ∧
    simplify (.Or [.Literal 'a', .Or [.Literal 'b', .Literal 'c']]) = none :=
  ⟨rfl, eval_simplify_or_nested⟩

/-- Claim C4: parsing the pattern [ab]c|de yields the tree
Or(And(Or(a, b), c), And(d, e)), and matching that tree succeeds on the
subjects ac, bc and de and fails on ae. -/
theorem claim_C4_example_pattern :
    parse ['[', 'a', 'b', ']', 'c', '|', 'd', 'e'] =
      .ok (.Or [.And [.Or [.Literal 'a', .Literal 'b'], .Literal 'c'],
        .And [.Literal 'd', .Literal 'e']]) ∧
    callRe (.Or [.And [.Or [.Literal 'a', .Literal 'b'], .Literal 'c'],
      .And [.Literal 'd', .Literal 'e']]) ['a', 'c'] = some true ∧
    callRe (.Or [.And [.Or [.Literal 'a', .Literal 'b'], .Literal 'c'],
      .And [.Literal 'd', .Literal 'e']]) ['b', 'c'] = some true ∧
    callRe (.Or [.And [.Or [.Literal 'a', .Literal 'b'], .Literal 'c'],
      .And [.Literal 'd', .Literal 'e']]) ['d', 'e'] = some true ∧
    callRe (.Or [.And [.Or [.Literal 'a', .Literal 'b'], .Literal 'c'],
      .And [.Literal 'd', .Literal 'e']]) ['a', 'e'] = some false := by
  refine ⟨rfl, ?_, ?_, ?_, ?_⟩ <;> simp [callRe, matchE]

/-- Claim C5: And evaluates its operands left to right against the same
cursor and short-circuits: when every operand of a prefix matches,
advancing the cursor from s to s1, and the next operand fails leaving
the cursor at s2, the whole conjunction returns False with the cursor
exactly at s2 - the operands after the failing one are not evaluated
and the positions consumed so far are not restored. -/
theorem claim_C5_and_short_circuit :
    ∀ (op : Regex) (ops2 ops1 : List Regex) (s s1 s2 : List Char),
      matchE (.And ops1) s = some (true, s1) →
      matchE op s1 = some (false, s2) →
      matchE (.And (ops1 ++ op :: ops2)) s = some (false, s2) :=
  and_shortcircuit

/-- Claim C5 witness: in And(a, c, z) against the subject ab, operand a
consumes the first symbol, operand c then fails, and the whole match
returns False with the first symbol still consumed (cursor at b);
operand z is never reached. -/
theorem claim_C5_witness :
    matchE (.And [.Literal 'a', .Literal 'c', .Literal 'z']) ['a', 'b'] =
      some (false, ['b']) :=
  claim_C5_and_short_circuit (.Literal 'c') [.Literal 'z'] [.Literal 'a']
    ['a', 'b'] ['b'] ['b'] (by simp [matchE]) (by simp [matchE])

/-- Claim C6: match success means a prefix of the input matched, so
trailing unconsumed input never turns success into failure: for every
Expression Tree and all subjects s and u, if the tree matches s then it
also matches s followed by u. -/
theorem claim_C6_prefix_extension :
    ∀ (t : Regex) (s u : List Char), isExpr t = true →
      callRe t s = some true → callRe t (s ++ u) = some true := by
  intro t s u hx h
  rcases hm : matchE t s with _ | ⟨b, s1⟩
  · rw [callRe, hm] at h
    cases h
  · rw [callRe, hm] at h
    simp at h
    rw [h] at hm
    obtain ⟨r1, hr⟩ := matchE_true_ext t hx s u s1 hm
    rw [callRe, hr]
    rfl

/-- Claim C6 witness: Or(a, b) matches the subject a, and still matches
after the unconsumed trailing symbol z is appended. -/
theorem claim_C6_witness :
    callRe (.Or [.Literal 'a', .Literal 'b']) (['a'] ++ ['z']) = some true :=
  claim_C6_prefix_extension (.Or [.Literal 'a', .Literal 'b']) ['a'] ['z']
    (by simp [isExpr]) (by simp [callRe, matchE])

/-- Claim C7 counterexample: the pattern consisting of an empty
character class is not derivable from the grammar, yet parse accepts it
without raising and returns the Python value None, which is not an
Expression Tree; this refutes the claim that parse raises exactly on
malformed patterns. -/
theorem claim_C7_counterexample :
    parse ['[', ']'] = .ok .pynone ∧ isExpr .pynone = false ∧ ¬ GRegex ['[', ']'] :=
  ⟨rfl, by rw [isExpr], not_GRegex_pair⟩

/-- Claim C7 (amended): parse fails with an unexpected-end error on the
empty pattern, fails with the trailing-input error whenever the
top-level regex call leaves unconsumed input, and succeeds with an
Expression Tree on every pattern derivable from the grammar; however,
parse does not raise on all malformed patterns - an empty character
class is accepted and yields the non-tree value None (see the
counterexample). -/
theorem claim_C7_parse_errors :
    parse [] = .error .unexpectedEnd ∧
    (∀ (s : List Char) (t : Regex) (d : Char) (r : List Char),
      parseStep (3 * s.length + 3) .regexR s = .ok (t, d :: r) →
      parse s = .error .trailingInput) ∧
    (∀ s, GRegex s → ∃ t, isExpr t = true ∧ parse s = .ok t) :=
  ⟨rfl, parse_trailing, parse_sound⟩

/-- Claim C7 witness: the single-symbol pattern a parses to a tree, and
the pattern a)b leaves the unconsumed remainder )b after the top-level
parse and therefore fails with the trailing-input error. -/
theorem claim_C7_witness :
    (∃ t, isExpr t = true ∧ parse ['a'] = .ok t) ∧
    parse ['a', ')', 'b'] = .error .trailingInput :=
  ⟨claim_C7_parse_errors.2.2 ['a']
      (GRegex.cat (GConcat.one (GGroup.sym (by simp [isSym])))),
    claim_C7_parse_errors.2.1 ['a', ')', 'b'] (.Literal 'a') ')' ['b'] rfl⟩

/-- Claim C8 counterexample: at the Literal a the claimed equation
simplify(simplify(t)) == simplify(t) does not evaluate to True, because
the inner call simplify(t) already raises AttributeError; there are no
values a and b with simplify(t) = a, simplify(a) = b and b == a True. -/
theorem claim_C8_counterexample :
    ¬ ∃ a b, simplify (.Literal 'a') = some a ∧ simplify a = some b ∧
      pyEq b a = some true := by
  rintro ⟨a, b, ha, -, -⟩
  rw [eval_simplify_lit] at ha
  cases ha

/-- Claim C8 (amended): on every tree on which simplify returns
normally, simplify is idempotent: the result is a fixpoint of the
driver, so simplifying it again returns it unchanged and the structural
comparison of the two results yields True. -/
theorem claim_C8_idempotent :
    ∀ (t a : Regex), simplify t = some a →
      simplify a = some a ∧ pyEq a a = some true := by
  intro t a h
  rw [simplify] at h ⊢
  exact ⟨run_until_unchanged_idem t a h, pyEq_refl a⟩

/-- Claim C8 witness: the flat conjunction And(a, b) is simplified to
itself, and simplifying the result again returns it with the
comparison yielding True. -/
theorem claim_C8_witness :
    simplify (.And [.Literal 'a', .Literal 'b']) = some (.And [.Literal 'a', .Literal 'b']) ∧
    pyEq (.And [.Literal 'a', .Literal 'b']) (.And [.Literal 'a', .Literal 'b']) = some true :=
  claim_C8_idempotent (.And [.Literal 'a', .Literal 'b'])
    (.And [.Literal 'a', .Literal 'b']) eval_simplify_and

/-- Claim C9: matching Literal(c): on a cursor whose front equals c the
match succeeds and consumes exactly that front element, leaving the
remainder unchanged; on a front mismatch it fails with the cursor
entirely unchanged; on an empty cursor it fails with the cursor still
empty. -/
theorem claim_C9_literal_cursor :
    ∀ (c x : Char) (rest : List Char),
      (x = c → matchE (.Literal c) (x :: rest) = some (true, rest)) ∧
      (x ≠ c → matchE (.Literal c) (x :: rest) = some (false, x :: rest)) ∧
      matchE (.Literal c) [] = some (false, []) := by
  intro c x rest
  refine ⟨?_, ?_, by rw [matchE]⟩
  · intro h
    rw [matchE, if_pos h]
  · intro h
    rw [matchE, if_neg h]

/-- Claim C9 witness: Literal(a) consumes exactly the matching front
symbol and leaves a mismatching cursor untouched. -/
theorem claim_C9_witness :
    matchE (.Literal 'a') ['a', 'y'] = some (true, ['y']) ∧
    matchE (.Literal 'a') ['b', 'y'] = some (false, ['b', 'y']) :=
  ⟨(claim_C9_literal_cursor 'a' 'a' ['y']).1 rfl,
    (claim_C9_literal_cursor 'a' 'b' ['y']).2.1 (by decide)⟩

/-- Claim C10: an empty character class is accepted without error but
produces a non-tree value: parse returns the Python value None for the
pattern consisting of an empty class, the pattern with a trailing
symbol parses to an And node containing None as an operand, and
matching that parse result raises an exception (calling None as a
matcher) instead of returning a boolean. -/
theorem claim_C10_empty_class :
    parse ['[', ']'] = .ok .pynone ∧
    isExpr .pynone = false ∧
    parse ['[', ']', 'a'] = .ok (.And [.pynone, .Literal 'a']) ∧
    callRe (.And [.pynone, .Literal 'a']) ['a'] = none := by
  refine ⟨rfl, by rw [isExpr], rfl, ?_⟩
  simp [callRe, matchE]

end Regexfun
